import Mathlib

/-!
Verification of the audio chunking/transcription pipeline core of the
AI_meeting_demo repository (segmentation, batch orchestration, transcript
merge).  The backend implementation files (`utils/audio_processor.py`,
`services/transcription_service.py`, `config.py`) are not present in the
repository snapshot; only their design documentation is.  The definitions
below are therefore modelled from the specification's description of those
components, faithfully following its algorithm text.
-/

namespace MeetingDemo

/-- Modelled from the spec: `cut_strategy ∈ {silence, hard, final}` of a
`ChunkBoundary` (spec §3). -/
inductive CutStrategy where
  | silence
  | hard
  | final
deriving DecidableEq, Repr

/-- Modelled from the spec: a `ChunkBoundary` record (spec §3),
`{index, start_ms, end_ms, cut_strategy, overlap_ms}`. -/
structure ChunkBoundary where
  index : Nat
  start_ms : Nat
  end_ms : Nat
  cut_strategy : CutStrategy
  overlap_ms : Nat
deriving DecidableEq, Repr

/-- Modelled from the spec: a `TranscriptSegment`
`{start_time, end_time, text, speaker_id (optional)}` (spec §3).  Times are
chunk-local until merged. -/
structure TranscriptSegment where
  start_time : Nat
  end_time : Nat
  text : String
  speaker_id : Option String
deriving DecidableEq, Repr

/-- Modelled from the spec: `status ∈ {ok, failed}` of a ChunkResult (spec §3). -/
inductive ChunkStatus where
  | ok
  | failed
deriving DecidableEq, Repr

/-- Modelled from the spec: a `ChunkResult`
`{chunk_index, status, segments (chunk-local), error (optional)}` (spec §3). -/
structure ChunkResult where
  chunk_index : Nat
  status : ChunkStatus
  segments : List TranscriptSegment
  error : Option String
deriving DecidableEq, Repr

/-- Modelled from the spec: a `MergedTranscript`
`{segments, total_duration_ms, chunk_count, failed_chunk_indices}` (spec §3). -/
structure MergedTranscript where
  segments : List TranscriptSegment
  total_duration_ms : Nat
  chunk_count : Nat
  failed_chunk_indices : List Nat
deriving DecidableEq, Repr

/-- Modelled from the spec: the error taxonomy of §7. -/
inductive PipelineError where
  | DecodeError
  | SegmentationError
  | ChunkExportError
  | TranscriptionRequestError
  | TranscriptionFailedError
  | MergeInconsistencyError
deriving DecidableEq, Repr

/-- Modelled from the spec: the immutable configuration record of §6:
`{chunking_enabled, min_chunk_ms, max_chunk_ms, overlap_ms,
silence_thresholds_dbfs, min_silence_ms, batch_size, max_size_bytes,
max_duration_ms}`. -/
structure Config where
  chunking_enabled : Bool
  min_chunk_ms : Nat
  max_chunk_ms : Nat
  overlap_ms : Nat
  silence_thresholds_dbfs : List Int
  min_silence_ms : Nat
  batch_size : Nat
  max_size_bytes : Nat
  max_duration_ms : Nat
deriving Repr

/-- The default configuration (spec §4.2, §4.4 defaults; REDIS_GIT_BASH_GUIDE
"Key Parameters"): MIN_MS = 10 min, MAX_MS = 15 min, OVERLAP_MS = 5 s,
thresholds −50,−40,−35,−30,−25 dBFS, MIN_SILENCE_LEN = 500 ms, BATCH_SIZE = 5. -/
def defaultConfig : Config :=
  { chunking_enabled := true
    min_chunk_ms := 600000
    max_chunk_ms := 900000
    overlap_ms := 5000
    silence_thresholds_dbfs := [-50, -40, -35, -30, -25]
    min_silence_ms := 500
    batch_size := 5
    max_size_bytes := 20971520
    max_duration_ms := 1500000 }

/-- A small-number configuration used for concrete examples: chunks of 2–5 ms,
1 ms overlap, two thresholds, batches of 2, ceilings 100 bytes / 50 ms. -/
def tinyConfig : Config :=
  { chunking_enabled := true
    min_chunk_ms := 2
    max_chunk_ms := 5
    overlap_ms := 1
    silence_thresholds_dbfs := [-40, -20]
    min_silence_ms := 1
    batch_size := 2
    max_size_bytes := 100
    max_duration_ms := 50 }

/-- `tinyConfig` with chunking disabled. -/
def tinyConfigOff : Config :=
  { tinyConfig with chunking_enabled := false }

/-- Modelled from the spec: the acoustic content of a decoded audio stream, as
far as the segmenter observes it — for each dBFS threshold, the list of
(start_ms, end_ms) intervals whose energy stays at or below that threshold
(spec §4.2 step 3, glossary "Silence run").  The segmenter treats the audio
backend as a collaborator (§6), so this is its observable interface. -/
def SilenceProfile : Type := Int → List (Nat × Nat)

/-- Modelled from the spec (§4.2 steps 2–3): an energy interval qualifies for a
cut at cursor `c` when it lies inside the search window
`[c + min_chunk_ms, c + max_chunk_ms]` and lasts at least `min_silence_ms`. -/
def qualifies (cfg : Config) (c : Nat) (iv : Nat × Nat) : Bool :=
  decide (c + cfg.min_chunk_ms ≤ iv.1) &&
  decide (iv.2 ≤ c + cfg.max_chunk_ms) &&
  decide (iv.1 ≤ iv.2) &&
  decide (cfg.min_silence_ms ≤ iv.2 - iv.1)

/-- Modelled from the spec (§4.2 step 4): the **earliest** interval of a list,
i.e. the one with the least start time (first such on ties). -/
def earliestInterval : List (Nat × Nat) → Option (Nat × Nat)
  | [] => none
  | iv :: rest =>
    match earliestInterval rest with
    | none => some iv
    | some jv => some (if jv.1 < iv.1 then jv else iv)

/-- Modelled from the spec (§4.2 steps 3–4): iterate the configured silence
thresholds from strictest to most permissive; on the first threshold yielding a
qualifying interval, cut at the midpoint of the earliest such interval. -/
def silenceCutFrom (cfg : Config) (profile : SilenceProfile) (c : Nat) :
    List Int → Option Nat
  | [] => none
  | t :: ts =>
    match earliestInterval ((profile t).filter (qualifies cfg c)) with
    | some iv => some ((iv.1 + iv.2) / 2)
    | none => silenceCutFrom cfg profile c ts

/-- Modelled from the spec (§4.2 steps 3–5): the complete silence search for
one chunk boundary, over the whole configured threshold list. -/
def findSilenceCut (cfg : Config) (profile : SilenceProfile) (c : Nat) :
    Option Nat :=
  silenceCutFrom cfg profile c cfg.silence_thresholds_dbfs

/-- Modelled from the spec (§4.2 algorithm): the segmentation loop.  From the
current cursor: if the remaining duration is at most `max_chunk_ms`, emit the
`final` boundary and stop; otherwise cut at a found silence midpoint
(`silence` boundary, next chunk starts exactly at the cut), or hard-cut at
`cursor + max_chunk_ms` with the next chunk starting `overlap_ms` earlier.
`fuel` bounds the number of iterations; `none` means fuel ran out. -/
def segmentLoop (cfg : Config) (profile : SilenceProfile) (total : Nat) :
    Nat → Nat → Nat → Option (List ChunkBoundary)
  | 0, _, _ => none
  | fuel + 1, c, idx =>
    if total - c ≤ cfg.max_chunk_ms then
      some [⟨idx, c, total, CutStrategy.final, 0⟩]
    else
      match findSilenceCut cfg profile c with
      | some cut =>
        (segmentLoop cfg profile total fuel cut (idx + 1)).map
          (fun rest => ⟨idx, c, cut, CutStrategy.silence, 0⟩ :: rest)
      | none =>
        (segmentLoop cfg profile total fuel
            (c + cfg.max_chunk_ms - cfg.overlap_ms) (idx + 1)).map
          (fun rest =>
            ⟨idx, c, c + cfg.max_chunk_ms, CutStrategy.hard, cfg.overlap_ms⟩ :: rest)

/-- Modelled from the spec (§4.2): the SilenceAwareSegmenter entry point.
Fails with `SegmentationError` when `total_duration_ms ≤ 0` (spec §4.2 failure
mode); otherwise runs the loop from cursor 0 with ample fuel. -/
def segment (cfg : Config) (profile : SilenceProfile)
    (total_duration_ms : Int) : Except PipelineError (List ChunkBoundary) :=
  if total_duration_ms ≤ 0 then
    Except.error PipelineError.SegmentationError
  else
    match segmentLoop cfg profile total_duration_ms.toNat
        (total_duration_ms.toNat + 1) 0 0 with
    | some bs => Except.ok bs
    | none => Except.error PipelineError.SegmentationError

/-- Modelled from the spec: the result reported by AudioProbe (§4.1),
`probe(source) -> {duration_ms, size_bytes}`. -/
structure ProbeResult where
  duration_ms : Int
  size_bytes : Nat
deriving DecidableEq, Repr

/-- Modelled from the spec (§4.1): the decision rule consumed by the pipeline
entry point — chunking is required iff
`size_bytes > max_size_bytes OR duration_ms > max_duration_ms`. -/
def needsChunking (cfg : Config) (p : ProbeResult) : Bool :=
  decide ((cfg.max_size_bytes : Nat) < p.size_bytes) ||
  decide ((cfg.max_duration_ms : Int) < p.duration_ms)

/-- Modelled from the spec (§4.1, §6 `chunking_enabled`, part_007
`enable_chunking`): the pipeline entry point performs segmentation only when
chunking is enabled in the configuration AND the probe decision rule says the
source exceeds the ceiling. -/
def usesChunking (cfg : Config) (p : ProbeResult) : Bool :=
  cfg.chunking_enabled && needsChunking cfg p

/-- Modelled from the spec (§4.1): the boundary plan of the pipeline entry
point.  When segmentation is skipped, the whole source is a single chunk with
`cut_strategy = final` spanning the entire duration. -/
def planBoundaries (cfg : Config) (profile : SilenceProfile) (p : ProbeResult) :
    Except PipelineError (List ChunkBoundary) :=
  if usesChunking cfg p then
    segment cfg profile p.duration_ms
  else
    Except.ok [⟨0, 0, p.duration_ms.toNat, CutStrategy.final, 0⟩]

/-- Modelled from the spec (§4.4): partition a list into consecutive batches of
a fixed size (the orchestrator's `range(0, len, BATCH_SIZE)` slicing). -/
def makeBatches (n : Nat) (l : List α) : List (List α) :=
  match l with
  | [] => []
  | x :: xs =>
    if _h : n = 0 then []
    else (x :: xs).take n :: makeBatches n ((x :: xs).drop n)
termination_by l.length
decreasing_by
  simp only [List.length_drop, List.length_cons]
  omega

/-- Modelled from the spec (§4.4): the per-batch dispatch plan for `n` chunks:
chunk indices 0..n−1 partitioned into consecutive batches of `batch_size`. -/
def dispatchBatches (batch_size n : Nat) : List (List Nat) :=
  makeBatches batch_size (List.range n)

/-- Modelled from the spec (§4.4): the sequence of transcription calls the
orchestrator makes — one call per chunk of each batch, batches in order, every
call of a batch settled before the next batch starts. -/
def callTrace (batch_size n : Nat) : List Nat :=
  (dispatchBatches batch_size n).flatten

/-- Modelled from the spec (§6): the transcription API client collaborator —
for a chunk index, either the ordered chunk-local segments or an error. -/
def TranscriptionClient : Type := Nat → Except String (List TranscriptSegment)

/-- Modelled from the spec (§4.4 step 3): record one call's outcome as a
ChunkResult keyed by chunk index; a failure is captured, not propagated. -/
def runChunk (client : TranscriptionClient) (i : Nat) : ChunkResult :=
  match client i with
  | Except.ok segs => ⟨i, ChunkStatus.ok, segs, none⟩
  | Except.error e => ⟨i, ChunkStatus.failed, [], some e⟩

/-- Whether the transcription call for chunk `i` fails. -/
def clientFails (client : TranscriptionClient) (i : Nat) : Bool :=
  match client i with
  | Except.ok _ => false
  | Except.error _ => true

/-- Modelled from the spec (§4.4): insertion of a result into a list already
sorted by chunk index (helper of the orchestrator's final sort). -/
def insertByIndex (r : ChunkResult) : List ChunkResult → List ChunkResult
  | [] => [r]
  | x :: xs =>
    if r.chunk_index ≤ x.chunk_index then r :: x :: xs
    else x :: insertByIndex r xs

/-- Modelled from the spec (§4.4): "results are sorted by chunk index (not by
completion order) before being handed to the Merger". -/
def sortByIndex : List ChunkResult → List ChunkResult
  | [] => []
  | x :: xs => insertByIndex x (sortByIndex xs)

/-- Modelled from the spec (§4.4): the BatchTranscriptionOrchestrator.  Makes
one call per chunk, batch by batch; captures per-chunk failures; sorts results
by chunk index; surfaces a single aggregate `TranscriptionFailedError` when
every chunk failed (total-failure rule, §4.4). -/
def orchestrate (cfg : Config) (client : TranscriptionClient) (n : Nat) :
    Except PipelineError (List ChunkResult) :=
  if ((callTrace cfg.batch_size n).map (runChunk client)).length ≠ 0 ∧
      ((callTrace cfg.batch_size n).map (runChunk client)).all
        (fun r => r.status = ChunkStatus.failed) then
    Except.error PipelineError.TranscriptionFailedError
  else
    Except.ok (sortByIndex ((callTrace cfg.batch_size n).map (runChunk client)))

/-- Modelled from the spec (§4.5): shift a chunk-local segment into global time
by adding the chunk boundary's `start_ms` to its start and end times. -/
def shiftSegment (off : Nat) (s : TranscriptSegment) : TranscriptSegment :=
  { s with start_time := s.start_time + off, end_time := s.end_time + off }

/-- Modelled from the spec (§4.5): the global-time segments a chunk offers to
the merge: its segments shifted by its boundary's start, or nothing if the
chunk failed. -/
def chunkSegments (b : ChunkBoundary) (r : ChunkResult) : List TranscriptSegment :=
  if r.status = ChunkStatus.ok then r.segments.map (shiftSegment b.start_ms) else []

/-- Modelled from the spec (§4.5 overlap resolution): the segments of a chunk
that survive into the merged transcript, given the previous chunk's boundary
and whether the previous chunk failed.  After a hard cut by a previous chunk
that succeeded, segments starting strictly before the previous chunk's nominal
end are discarded; if the previous chunk failed, everything is kept. -/
def keptSegments : Option (ChunkBoundary × Bool) → ChunkBoundary →
    ChunkResult → List TranscriptSegment
  | none, b, r => chunkSegments b r
  | some (pb, pfailed), b, r =>
    if pb.cut_strategy = CutStrategy.hard ∧ pfailed = false then
      (chunkSegments b r).filter (fun s => decide (pb.end_ms ≤ s.start_time))
    else
      chunkSegments b r

/-- Modelled from the spec (§4.5): concatenate, in chunk order, each chunk's
surviving global-time segments, threading the previous chunk's boundary and
failure flag for overlap resolution. -/
def mergeSegs : Option (ChunkBoundary × Bool) →
    List (ChunkBoundary × ChunkResult) → List TranscriptSegment
  | _, [] => []
  | prev, (b, r) :: rest =>
    keptSegments prev b r ++
      mergeSegs (some (b, decide (r.status = ChunkStatus.failed))) rest

/-- Modelled from the spec (§4.5): the per-chunk surviving-segment lists, in
chunk order (the merged transcript is their concatenation). -/
def contribs : Option (ChunkBoundary × Bool) →
    List (ChunkBoundary × ChunkResult) → List (List TranscriptSegment)
  | _, [] => []
  | prev, (b, r) :: rest =>
    keptSegments prev b r ::
      contribs (some (b, decide (r.status = ChunkStatus.failed))) rest

/-- Modelled from the spec (§4.5, §7): the TranscriptMerger.  Checks the
chunk/boundary count invariant (`MergeInconsistencyError` on mismatch), then
builds the MergedTranscript: shifted, overlap-resolved, concatenated segments;
failed chunks listed by index. -/
def merge (boundaries : List ChunkBoundary) (results : List ChunkResult) :
    Except PipelineError MergedTranscript :=
  if boundaries.length ≠ results.length then
    Except.error PipelineError.MergeInconsistencyError
  else
    Except.ok
      { segments := mergeSegs none (boundaries.zip results)
        total_duration_ms := (boundaries.getLast?).elim 0 (fun b => b.end_ms)
        chunk_count := results.length
        failed_chunk_indices :=
          (results.filter (fun r => r.status = ChunkStatus.failed)).map
            (fun r => r.chunk_index) }

/-- The adjacency relation claimed for consecutive boundaries (spec §3, §8.2):
strictly increasing starts, hard cuts chain with the overlap subtracted,
silence/final cuts chain exactly. -/
def adjacent (cfg : Config) (a b : ChunkBoundary) : Prop :=
  a.start_ms < b.start_ms ∧
  (a.cut_strategy = CutStrategy.hard → b.start_ms = a.end_ms - cfg.overlap_ms) ∧
  (a.cut_strategy = CutStrategy.silence ∨ a.cut_strategy = CutStrategy.final →
    b.start_ms = a.end_ms)

instance : IsTrans ChunkBoundary (fun a b => a.start_ms < b.start_ms) :=
  ⟨fun _ _ _ h1 h2 => Nat.lt_trans h1 h2⟩

/-- The overlap a boundary imposes on its successor: its `overlap_ms` for a
hard cut, nothing for silence/final cuts (spec §4.2 step 5, §4.5). -/
def hardOv (b : ChunkBoundary) : Nat :=
  if b.cut_strategy = CutStrategy.hard then b.overlap_ms else 0

/-- Well-formed chaining of two consecutive boundaries (the data-model
invariant of spec §3 expressed without truncated subtraction): the successor
starts `hardOv` before this boundary's end, and the chunk is long enough to
absorb both adjacent overlaps. -/
def chainLink (a b : ChunkBoundary) : Prop :=
  a.end_ms = b.start_ms + hardOv a ∧
  b.start_ms + hardOv a + hardOv b ≤ b.end_ms

/-- The §6 transcription-client contract for one chunk's result: its
chunk-local segments are ordered by start time and lie within the chunk's
span. -/
def localOk (b : ChunkBoundary) (r : ChunkResult) : Prop :=
  List.Pairwise (fun s t : TranscriptSegment => s.start_time ≤ t.start_time)
    r.segments ∧
  ∀ s ∈ r.segments, b.start_ms + s.start_time ≤ b.end_ms

/-- Lower bound on the global start time of every segment the merge of a pair
list can produce, given the previous chunk's boundary and failure flag. -/
def floorOf : Option (ChunkBoundary × Bool) →
    List (ChunkBoundary × ChunkResult) → Nat
  | _, [] => 0
  | none, q :: _ => q.1.start_ms
  | some (pb, pf), q :: _ =>
    if pb.cut_strategy = CutStrategy.hard ∧ pf = false then pb.end_ms
    else q.1.start_ms

/-- Chaining condition between a previous boundary (if any) and the head of
the remaining pair list. -/
def linkOk : Option (ChunkBoundary × Bool) →
    List (ChunkBoundary × ChunkResult) → Prop
  | _, [] => True
  | none, _ => True
  | some (pb, _), q :: _ => chainLink pb q.1

/-! ## Segmenter lemmas -/

theorem earliestInterval_mem {l : List (Nat × Nat)} {iv : Nat × Nat}
    (h : earliestInterval l = some iv) : iv ∈ l := by
  induction l generalizing iv with
  | nil => simp [earliestInterval] at h
  | cons x xs ih =>
    simp only [earliestInterval] at h
    cases hx : earliestInterval xs with
    | none => rw [hx] at h; simp at h; simp [h]
    | some jv =>
      rw [hx] at h
      simp only [Option.some.injEq] at h
      by_cases hlt : jv.1 < x.1
      · rw [if_pos hlt] at h
        subst h
        exact List.mem_cons_of_mem x (ih hx)
      · rw [if_neg hlt] at h; simp [← h]

theorem earliestInterval_isSome {l : List (Nat × Nat)} (h : l ≠ []) :
    ∃ iv, earliestInterval l = some iv := by
  cases l with
  | nil => exact absurd rfl h
  | cons x xs =>
    simp only [earliestInterval]
    cases earliestInterval xs with
    | none => exact ⟨x, rfl⟩
    | some jv => exact ⟨_, rfl⟩

theorem earliestInterval_min {l : List (Nat × Nat)} {iv : Nat × Nat}
    (h : earliestInterval l = some iv) : ∀ jv ∈ l, iv.1 ≤ jv.1 := by
  induction l generalizing iv with
  | nil => simp [earliestInterval] at h
  | cons x xs ih =>
    intro jv hjv
    simp only [earliestInterval] at h
    cases hx : earliestInterval xs with
    | none =>
      rw [hx] at h
      simp only [Option.some.injEq] at h
      cases xs with
      | nil =>
        rcases List.mem_singleton.mp hjv with rfl
        exact h ▸ Nat.le_refl _
      | cons y ys =>
        obtain ⟨kv, hkv⟩ :=
          @earliestInterval_isSome (y :: ys) (List.cons_ne_nil y ys)
        rw [hkv] at hx
        cases hx
    | some kv =>
      rw [hx] at h
      simp only [Option.some.injEq] at h
      rcases List.mem_cons.mp hjv with hjx | hmem
      · rw [hjx]
        by_cases hlt : kv.1 < x.1
        · rw [if_pos hlt] at h; exact h ▸ Nat.le_of_lt hlt
        · rw [if_neg hlt] at h; exact h ▸ Nat.le_refl _
      · have hk := ih hx jv hmem
        by_cases hlt : kv.1 < x.1
        · rw [if_pos hlt] at h; exact h ▸ hk
        · rw [if_neg hlt] at h
          subst h
          exact Nat.le_trans (Nat.le_of_not_lt hlt) hk

theorem qualifies_bounds {cfg : Config} {c : Nat} {iv : Nat × Nat}
    (h : qualifies cfg c iv = true) :
    c + cfg.min_chunk_ms ≤ iv.1 ∧ iv.2 ≤ c + cfg.max_chunk_ms ∧ iv.1 ≤ iv.2 := by
  simp only [qualifies, Bool.and_eq_true, decide_eq_true_eq] at h
  exact ⟨h.1.1.1, h.1.1.2, h.1.2⟩

theorem silenceCutFrom_bounds {cfg : Config} {profile : SilenceProfile}
    {c cut : Nat} : ∀ {ts : List Int},
    silenceCutFrom cfg profile c ts = some cut →
    c + cfg.min_chunk_ms ≤ cut ∧ cut ≤ c + cfg.max_chunk_ms := by
  intro ts
  induction ts with
  | nil => intro h; simp [silenceCutFrom] at h
  | cons t ts ih =>
    intro h
    simp only [silenceCutFrom] at h
    cases he : earliestInterval ((profile t).filter (qualifies cfg c)) with
    | none => rw [he] at h; exact ih h
    | some iv =>
      rw [he] at h
      simp only [Option.some.injEq] at h
      have hmem := earliestInterval_mem he
      have hq := (List.mem_filter.mp hmem).2
      obtain ⟨h1, h2, h3⟩ := qualifies_bounds hq
      constructor
      · calc c + cfg.min_chunk_ms ≤ iv.1 := h1
          _ = (iv.1 + iv.1) / 2 := by omega
          _ ≤ (iv.1 + iv.2) / 2 := by
            exact Nat.div_le_div_right (by omega)
          _ = cut := h
      · calc cut = (iv.1 + iv.2) / 2 := h.symm
          _ ≤ (iv.2 + iv.2) / 2 := Nat.div_le_div_right (by omega)
          _ = iv.2 := by omega
          _ ≤ c + cfg.max_chunk_ms := h2

theorem findSilenceCut_bounds {cfg : Config} {profile : SilenceProfile}
    {c cut : Nat} (h : findSilenceCut cfg profile c = some cut) :
    c + cfg.min_chunk_ms ≤ cut ∧ cut ≤ c + cfg.max_chunk_ms :=
  silenceCutFrom_bounds h

theorem segmentLoop_invariant {cfg : Config} {profile : SilenceProfile}
    {total : Nat} (hmin : 0 < cfg.min_chunk_ms)
    (hov : cfg.overlap_ms < cfg.max_chunk_ms) :
    ∀ fuel c idx bs, c < total →
    segmentLoop cfg profile total fuel c idx = some bs →
    (∃ b0 rest, bs = b0 :: rest ∧ b0.start_ms = c) ∧
    (∀ b ∈ bs, b.start_ms < b.end_ms) ∧
    List.Chain' (adjacent cfg) bs := by
  intro fuel
  induction fuel with
  | zero => intro c idx bs _ h; simp [segmentLoop] at h
  | succ fuel ih =>
    intro c idx bs hc h
    simp only [segmentLoop] at h
    by_cases hfin : total - c ≤ cfg.max_chunk_ms
    · rw [if_pos hfin] at h
      simp only [Option.some.injEq] at h
      subst h
      refine ⟨⟨_, _, rfl, rfl⟩, ?_, ?_⟩
      · intro b hb
        rcases List.mem_singleton.mp hb with rfl
        exact hc
      · simp
    · rw [if_neg hfin] at h
      have hcmax : c + cfg.max_chunk_ms < total := by omega
      split at h
      · rename_i cut hcut
        obtain ⟨hcut1, hcut2⟩ := findSilenceCut_bounds hcut
        cases hrest : segmentLoop cfg profile total fuel cut (idx + 1) with
        | none => rw [hrest] at h; cases h
        | some rest =>
          rw [hrest] at h
          simp only [Option.map_some', Option.some.injEq] at h
          subst h
          have hcut_lt : cut < total := by omega
          obtain ⟨⟨b0, rest', hb0, hb0s⟩, hlt, hchain⟩ :=
            ih cut (idx + 1) rest hcut_lt hrest
          refine ⟨⟨_, _, rfl, rfl⟩, ?_, ?_⟩
          · intro b hb
            rcases List.mem_cons.mp hb with rfl | hmem
            · show c < cut
              omega
            · exact hlt b hmem
          · subst hb0
            refine List.chain'_cons.mpr ⟨?_, hchain⟩
            refine ⟨?_, ?_, ?_⟩
            · show c < b0.start_ms
              omega
            · intro hstrat; cases hstrat
            · intro _
              show b0.start_ms = cut
              exact hb0s
      · rename_i hcut
        cases hrest : segmentLoop cfg profile total fuel
            (c + cfg.max_chunk_ms - cfg.overlap_ms) (idx + 1) with
        | none => rw [hrest] at h; cases h
        | some rest =>
          rw [hrest] at h
          simp only [Option.map_some', Option.some.injEq] at h
          subst h
          have hnext_lt : c + cfg.max_chunk_ms - cfg.overlap_ms < total := by omega
          obtain ⟨⟨b0, rest', hb0, hb0s⟩, hlt, hchain⟩ :=
            ih (c + cfg.max_chunk_ms - cfg.overlap_ms) (idx + 1) rest hnext_lt hrest
          refine ⟨⟨_, _, rfl, rfl⟩, ?_, ?_⟩
          · intro b hb
            rcases List.mem_cons.mp hb with rfl | hmem
            · show c < c + cfg.max_chunk_ms
              omega
            · exact hlt b hmem
          · subst hb0
            refine List.chain'_cons.mpr ⟨?_, hchain⟩
            refine ⟨?_, ?_, ?_⟩
            · show c < b0.start_ms
              omega
            · intro _
              show b0.start_ms = c + cfg.max_chunk_ms - cfg.overlap_ms
              exact hb0s
            · intro hstrat; rcases hstrat with hstrat | hstrat <;> cases hstrat

theorem segmentLoop_total {cfg : Config} {profile : SilenceProfile}
    {total : Nat} (hmin : 0 < cfg.min_chunk_ms)
    (hov : cfg.overlap_ms < cfg.max_chunk_ms) :
    ∀ fuel c idx, total - c < fuel →
    ∃ bs, segmentLoop cfg profile total fuel c idx = some bs := by
  intro fuel
  induction fuel with
  | zero => intro c idx hfuel; omega
  | succ fuel ih =>
    intro c idx hfuel
    simp only [segmentLoop]
    by_cases hfin : total - c ≤ cfg.max_chunk_ms
    · rw [if_pos hfin]
      exact ⟨_, rfl⟩
    · rw [if_neg hfin]
      cases hcut : findSilenceCut cfg profile c with
      | some cut =>
        obtain ⟨hcut1, _⟩ := findSilenceCut_bounds hcut
        obtain ⟨rest, hrest⟩ := ih cut (idx + 1) (by omega)
        exact ⟨⟨idx, c, cut, CutStrategy.silence, 0⟩ :: rest,
          by simp only [hrest, Option.map_some']⟩
      | none =>
        obtain ⟨rest, hrest⟩ :=
          ih (c + cfg.max_chunk_ms - cfg.overlap_ms) (idx + 1) (by omega)
        exact ⟨⟨idx, c, c + cfg.max_chunk_ms, CutStrategy.hard,
            cfg.overlap_ms⟩ :: rest,
          by simp only [hrest, Option.map_some']⟩

/-- **C2.** (spec §3 ChunkBoundary invariant; §8.2) For every boundary list the
segmenter produces: `start_ms` is strictly increasing, every boundary has
`end_ms > start_ms`, each hard cut is followed by a chunk starting
`overlap_ms` earlier than its end, and each silence/final cut is followed
exactly at its end. -/
theorem segment_boundary_invariant {cfg : Config} {profile : SilenceProfile}
    {d : Int} {bs : List ChunkBoundary} (hmin : 0 < cfg.min_chunk_ms)
    (hov : cfg.overlap_ms < cfg.max_chunk_ms)
    (h : segment cfg profile d = Except.ok bs) :
    List.Pairwise (fun a b => a.start_ms < b.start_ms) bs ∧
    (∀ b ∈ bs, b.start_ms < b.end_ms) ∧
    List.Chain' (adjacent cfg) bs := by
  unfold segment at h
  split at h
  · cases h
  · rename_i hpos
    split at h
    · rename_i bs0 hloop
      simp only [Except.ok.injEq] at h
      subst h
      have htot : 0 < d.toNat := by
        simp only [not_le] at hpos
        omega
      obtain ⟨_, hlt, hchain⟩ :=
        segmentLoop_invariant hmin hov (d.toNat + 1) 0 0 bs0 htot hloop
      refine ⟨?_, hlt, hchain⟩
      have hchain2 : List.Chain' (fun a b : ChunkBoundary =>
          a.start_ms < b.start_ms) bs0 :=
        hchain.imp (fun a b hab => hab.1)
      exact List.chain'_iff_pairwise.mp hchain2
    · cases h

/-- **C9.** (spec §4.2 failure mode) The segmenter fails with
`SegmentationError` exactly when `total_duration_ms ≤ 0`; for every positive
duration it terminates with a boundary list and no error. -/
theorem segment_error_iff {cfg : Config} {profile : SilenceProfile} {d : Int}
    (hmin : 0 < cfg.min_chunk_ms) (hov : cfg.overlap_ms < cfg.max_chunk_ms) :
    (segment cfg profile d = Except.error PipelineError.SegmentationError ↔ d ≤ 0) ∧
    (0 < d → ∃ bs, segment cfg profile d = Except.ok bs) := by
  have hok : 0 < d → ∃ bs, segment cfg profile d = Except.ok bs := by
    intro hd
    obtain ⟨bs, hbs⟩ := @segmentLoop_total cfg profile d.toNat
      hmin hov (d.toNat + 1) 0 0 (by omega)
    refine ⟨bs, ?_⟩
    unfold segment
    rw [if_neg (by omega), hbs]
  constructor
  · constructor
    · intro herr
      by_contra hpos
      obtain ⟨bs, hbs⟩ := hok (by omega)
      rw [hbs] at herr
      cases herr
    · intro hd
      unfold segment
      rw [if_pos hd]
  · exact hok

/-- **C3.** (spec §4.2 steps 3–4; §8.3) Whenever some configured silence
threshold yields at least one qualifying interval in the search window, the
boundary the segmenter emits at that cursor is a `silence` cut — never `hard` —
and its cut point is the midpoint of the earliest qualifying interval found at
the first threshold (in strictest-to-most-permissive order) that yields one. -/
theorem silence_preferred_over_hard {cfg : Config} {profile : SilenceProfile}
    {total fuel c idx : Nat} {bs : List ChunkBoundary} {t : Int}
    (hloop : segmentLoop cfg profile total (fuel + 1) c idx = some bs)
    (hbig : ¬ total - c ≤ cfg.max_chunk_ms)
    (ht : t ∈ cfg.silence_thresholds_dbfs)
    (hyield : (profile t).any (qualifies cfg c) = true) :
    ∃ t0 iv0 rest,
      cfg.silence_thresholds_dbfs.find?
        (fun u => (profile u).any (qualifies cfg c)) = some t0 ∧
      iv0 ∈ profile t0 ∧ qualifies cfg c iv0 = true ∧
      (∀ jv ∈ profile t0, qualifies cfg c jv = true → iv0.1 ≤ jv.1) ∧
      bs = ⟨idx, c, (iv0.1 + iv0.2) / 2, CutStrategy.silence, 0⟩ :: rest := by
  have hcutfrom : ∀ ts : List Int, (∃ u ∈ ts, (profile u).any (qualifies cfg c) = true) →
      ∃ t0 iv0, ts.find? (fun u => (profile u).any (qualifies cfg c)) = some t0 ∧
        iv0 ∈ profile t0 ∧ qualifies cfg c iv0 = true ∧
        (∀ jv ∈ profile t0, qualifies cfg c jv = true → iv0.1 ≤ jv.1) ∧
        silenceCutFrom cfg profile c ts = some ((iv0.1 + iv0.2) / 2) := by
    intro ts
    induction ts with
    | nil => rintro ⟨u, hu, _⟩; cases hu
    | cons v vs ih =>
      rintro ⟨u, hu, huy⟩
      by_cases hv : (profile v).any (qualifies cfg c) = true
      · have hne : (profile v).filter (qualifies cfg c) ≠ [] := by
          intro hemp
          obtain ⟨w, hw, hwq⟩ := List.any_eq_true.mp hv
          exact List.not_mem_nil w (hemp ▸ List.mem_filter.mpr ⟨hw, hwq⟩)
        obtain ⟨iv0, hiv0⟩ := earliestInterval_isSome hne
        refine ⟨v, iv0, ?_, ?_, ?_, ?_, ?_⟩
        · exact List.find?_cons_of_pos vs hv
        · exact (List.mem_filter.mp (earliestInterval_mem hiv0)).1
        · exact (List.mem_filter.mp (earliestInterval_mem hiv0)).2
        · intro jv hjv hjq
          exact earliestInterval_min hiv0 jv (List.mem_filter.mpr ⟨hjv, hjq⟩)
        · simp only [silenceCutFrom]
          rw [hiv0]
      · have hfe : (profile v).filter (qualifies cfg c) = [] := by
          rw [List.filter_eq_nil_iff]
          intro w hw
          intro hwq
          exact hv (List.any_eq_true.mpr ⟨w, hw, hwq⟩)
        have hu' : u ∈ vs := by
          rcases List.mem_cons.mp hu with rfl | hmem
          · exact absurd huy hv
          · exact hmem
        obtain ⟨t0, iv0, hfind, hmem0, hq0, hmin0, hcut0⟩ := ih ⟨u, hu', huy⟩
        refine ⟨t0, iv0, ?_, hmem0, hq0, hmin0, ?_⟩
        · rw [List.find?_cons_of_neg vs hv]
          exact hfind
        · simp only [silenceCutFrom]
          rw [hfe]
          exact hcut0
  obtain ⟨t0, iv0, hfind, hmem0, hq0, hmin0, hcut0⟩ :=
    hcutfrom cfg.silence_thresholds_dbfs ⟨t, ht, hyield⟩
  simp only [segmentLoop] at hloop
  rw [if_neg hbig] at hloop
  have hfsc : findSilenceCut cfg profile c = some ((iv0.1 + iv0.2) / 2) := hcut0
  rw [hfsc] at hloop
  have hloop2 : (segmentLoop cfg profile total fuel ((iv0.1 + iv0.2) / 2)
      (idx + 1)).map
      (fun rest =>
        (⟨idx, c, (iv0.1 + iv0.2) / 2, CutStrategy.silence, 0⟩ : ChunkBoundary)
          :: rest) = some bs := hloop
  cases hrest : segmentLoop cfg profile total fuel ((iv0.1 + iv0.2) / 2)
      (idx + 1) with
  | none => rw [hrest] at hloop2; cases hloop2
  | some rest =>
    rw [hrest] at hloop2
    simp only [Option.map_some', Option.some.injEq] at hloop2
    exact ⟨t0, iv0, rest, hfind, hmem0, hq0, hmin0, hloop2.symm⟩

/-! ## Pipeline entry point: chunking decision -/

/-- **C4.** (spec §4.1; §8.1) With chunking enabled (its default), the pipeline
performs segmentation iff `size_bytes > max_size_bytes` or
`duration_ms > max_duration_ms`; when it does not, the whole source becomes
exactly one chunk whose single boundary is a `final` cut spanning the entire
duration. -/
theorem chunking_decision_rule {cfg : Config} {profile : SilenceProfile}
    {p : ProbeResult} (hen : cfg.chunking_enabled = true) :
    (usesChunking cfg p = true ↔
      cfg.max_size_bytes < p.size_bytes ∨
        (cfg.max_duration_ms : Int) < p.duration_ms) ∧
    (usesChunking cfg p = false →
      planBoundaries cfg profile p =
        Except.ok [⟨0, 0, p.duration_ms.toNat, CutStrategy.final, 0⟩]) := by
  constructor
  · simp [usesChunking, needsChunking, hen]
  · intro hno
    simp [planBoundaries, hno]

/-- Witness for C4: an undersized probe result is not chunked and yields the
single whole-span final boundary. -/
theorem chunking_decision_rule_witness :
    tinyConfig.chunking_enabled = true ∧
    ((usesChunking tinyConfig ⟨40, 60⟩ = true ↔
      tinyConfig.max_size_bytes < 60 ∨
        (tinyConfig.max_duration_ms : Int) < 40) ∧
    (usesChunking tinyConfig ⟨40, 60⟩ = false →
      planBoundaries tinyConfig (fun _ => []) ⟨40, 60⟩ =
        Except.ok [⟨0, 0, (40 : Int).toNat, CutStrategy.final, 0⟩])) :=
  ⟨rfl, chunking_decision_rule rfl⟩

/-- **C10.** (part_007 `enable_chunking`, "For Shorter Videos (Disable
Chunking)") With `chunking_enabled = false` the size/duration decision rule is
bypassed: no segmentation happens and the whole recording becomes the single
chunk submitted as one request, whatever its size or duration. -/
theorem chunking_disabled_bypass {cfg : Config} {profile : SilenceProfile}
    {p : ProbeResult} (hdis : cfg.chunking_enabled = false) :
    usesChunking cfg p = false ∧
    planBoundaries cfg profile p =
      Except.ok [⟨0, 0, p.duration_ms.toNat, CutStrategy.final, 0⟩] := by
  have h : usesChunking cfg p = false := by simp [usesChunking, hdis]
  exact ⟨h, by simp [planBoundaries, h]⟩

/-- Witness for C10: a source exceeding both ceilings is still submitted whole
when chunking is disabled. -/
theorem chunking_disabled_bypass_witness :
    tinyConfigOff.chunking_enabled = false ∧
    needsChunking tinyConfigOff ⟨400, 600⟩ = true ∧
    (usesChunking tinyConfigOff ⟨400, 600⟩ = false ∧
      planBoundaries tinyConfigOff (fun _ => []) ⟨400, 600⟩ =
        Except.ok [⟨0, 0, (400 : Int).toNat, CutStrategy.final, 0⟩]) :=
  ⟨rfl, rfl, chunking_disabled_bypass rfl⟩

/-! ## Orchestrator lemmas -/

theorem makeBatches_flatten {n : Nat} (hn : n ≠ 0) :
    ∀ l : List α, (makeBatches n l).flatten = l := by
  have H : ∀ k, ∀ l : List α, l.length = k → (makeBatches n l).flatten = l := by
    intro k
    induction k using Nat.strong_induction_on with
    | _ k ihk =>
      intro l hk
      cases l with
      | nil => simp [makeBatches]
      | cons x xs =>
        simp only [makeBatches]
        rw [dif_neg hn]
        simp only [List.flatten_cons]
        have hdrop : ((x :: xs).drop n).length < k := by
          subst hk
          simp only [List.length_drop, List.length_cons]
          omega
        rw [ihk _ hdrop _ rfl]
        exact List.take_append_drop n (x :: xs)
  exact fun l => H l.length l rfl

theorem callTrace_eq_range {bsz n : Nat} (h : 0 < bsz) :
    callTrace bsz n = List.range n := by
  unfold callTrace dispatchBatches
  exact makeBatches_flatten (by omega) _

theorem runChunk_index {client : TranscriptionClient} {i : Nat} :
    (runChunk client i).chunk_index = i := by
  unfold runChunk
  cases client i <;> rfl

theorem runChunk_failed_iff {client : TranscriptionClient} {i : Nat} :
    (runChunk client i).status = ChunkStatus.failed ↔
      clientFails client i = true := by
  unfold runChunk clientFails
  cases client i <;> simp

theorem insertByIndex_of_le {r : ChunkResult} {l : List ChunkResult}
    (h : ∀ y ∈ l, r.chunk_index ≤ y.chunk_index) :
    insertByIndex r l = r :: l := by
  cases l with
  | nil => rfl
  | cons x xs =>
    unfold insertByIndex
    rw [if_pos (h x (List.mem_cons_self x xs))]

theorem sortByIndex_of_sorted {l : List ChunkResult}
    (h : List.Pairwise (fun a b => a.chunk_index ≤ b.chunk_index) l) :
    sortByIndex l = l := by
  induction l with
  | nil => rfl
  | cons x xs ih =>
    unfold sortByIndex
    rw [ih (List.Pairwise.of_cons h)]
    exact insertByIndex_of_le (fun y hy => List.rel_of_pairwise_cons h hy)

/-- **C5.** (spec §4.4, §8.6) For 8 chunks with `batch_size = 5` the
orchestrator dispatches exactly two batches — chunks 0–4, then chunks 5–7 —
the whole trace being one call per chunk in batch order, 8 calls in total. -/
theorem batch_dispatch_eight_chunks :
    dispatchBatches 5 8 = [[0, 1, 2, 3, 4], [5, 6, 7]] ∧
    (dispatchBatches 5 8).map List.length = [5, 3] ∧
    callTrace 5 8 = [0, 1, 2, 3, 4, 5, 6, 7] ∧
    (callTrace 5 8).length = 8 ∧
    (callTrace 5 8).Nodup := by
  have h1 : dispatchBatches 5 8 = [[0, 1, 2, 3, 4], [5, 6, 7]] := by
    simp [dispatchBatches, makeBatches, List.range_succ]
  have h2 : callTrace 5 8 = [0, 1, 2, 3, 4, 5, 6, 7] := by
    simp [callTrace, h1]
  refine ⟨h1, ?_, h2, ?_, ?_⟩
  · rw [h1]; rfl
  · rw [h2]; rfl
  · rw [h2]
    decide

/-- **C7.** (spec §4.4 total-failure rule; §8.9) When every chunk's
transcription fails, the orchestrator raises the single aggregate
`TranscriptionFailedError` instead of returning results that would merge into
an empty transcript. -/
theorem total_failure_aggregate {cfg : Config} {client : TranscriptionClient}
    {n : Nat} (hbs : 0 < cfg.batch_size) (hn : 0 < n)
    (hfail : ∀ i < n, clientFails client i = true) :
    orchestrate cfg client n =
      Except.error PipelineError.TranscriptionFailedError := by
  unfold orchestrate
  rw [callTrace_eq_range hbs]
  rw [if_pos]
  constructor
  · simp
    omega
  · rw [List.all_eq_true]
    intro r hr
    obtain ⟨i, hi, rfl⟩ := List.mem_map.mp hr
    have : clientFails client i = true := hfail i (List.mem_range.mp hi)
    simpa using runChunk_failed_iff.mpr this

/-- Witness for C7: two chunks, both failing, batch size 2. -/
theorem total_failure_aggregate_witness :
    0 < tinyConfig.batch_size ∧ 0 < 2 ∧
    (∀ i < 2, clientFails (fun _ => Except.error "boom") i = true) ∧
    orchestrate tinyConfig (fun _ => Except.error "boom") 2 =
      Except.error PipelineError.TranscriptionFailedError :=
  ⟨by decide, by decide, fun i _ => rfl,
    total_failure_aggregate (by decide) (by decide) (fun i _ => rfl)⟩

/-! ## Merger lemmas -/

theorem chunkSegments_failed {b : ChunkBoundary} {r : ChunkResult}
    (h : r.status = ChunkStatus.failed) : chunkSegments b r = [] := by
  unfold chunkSegments
  rw [if_neg]
  simp [h]

theorem mem_chunkSegments_lb {b : ChunkBoundary} {r : ChunkResult}
    {s : TranscriptSegment} (h : s ∈ chunkSegments b r) :
    b.start_ms ≤ s.start_time := by
  unfold chunkSegments at h
  split at h
  · obtain ⟨s0, _, rfl⟩ := List.mem_map.mp h
    simp [shiftSegment]
  · cases h

theorem mem_chunkSegments_ub {b : ChunkBoundary} {r : ChunkResult}
    {s : TranscriptSegment} (hloc : localOk b r) (h : s ∈ chunkSegments b r) :
    s.start_time ≤ b.end_ms := by
  unfold chunkSegments at h
  split at h
  · obtain ⟨s0, hs0, rfl⟩ := List.mem_map.mp h
    have := hloc.2 s0 hs0
    simp only [shiftSegment]
    omega
  · cases h

theorem chunkSegments_pairwise {b : ChunkBoundary} {r : ChunkResult}
    (hloc : localOk b r) :
    List.Pairwise (fun s t : TranscriptSegment => s.start_time ≤ t.start_time)
      (chunkSegments b r) := by
  unfold chunkSegments
  split
  · rw [List.pairwise_map]
    refine hloc.1.imp ?_
    intro s t hst
    simp only [shiftSegment]
    omega
  · exact List.Pairwise.nil

theorem mem_keptSegments {prev : Option (ChunkBoundary × Bool)}
    {b : ChunkBoundary} {r : ChunkResult} {s : TranscriptSegment}
    (h : s ∈ keptSegments prev b r) : s ∈ chunkSegments b r := by
  rcases prev with _ | ⟨pb, pf⟩
  · exact h
  · simp only [keptSegments] at h
    by_cases hcond : pb.cut_strategy = CutStrategy.hard ∧ pf = false
    · rw [if_pos hcond] at h
      exact List.mem_of_mem_filter h
    · rw [if_neg hcond] at h
      exact h

theorem keptSegments_pairwise {prev : Option (ChunkBoundary × Bool)}
    {b : ChunkBoundary} {r : ChunkResult} (hloc : localOk b r) :
    List.Pairwise (fun s t : TranscriptSegment => s.start_time ≤ t.start_time)
      (keptSegments prev b r) := by
  rcases prev with _ | ⟨pb, pf⟩
  · exact chunkSegments_pairwise hloc
  · simp only [keptSegments]
    by_cases hcond : pb.cut_strategy = CutStrategy.hard ∧ pf = false
    · rw [if_pos hcond]
      exact List.Pairwise.sublist (List.filter_sublist _)
        (chunkSegments_pairwise hloc)
    · rw [if_neg hcond]
      exact chunkSegments_pairwise hloc

theorem keptSegments_hard_lb {pb b : ChunkBoundary} {r : ChunkResult}
    {s : TranscriptSegment} (hh : pb.cut_strategy = CutStrategy.hard)
    (h : s ∈ keptSegments (some (pb, false)) b r) :
    pb.end_ms ≤ s.start_time := by
  have h2 : s ∈ (if pb.cut_strategy = CutStrategy.hard ∧ (false : Bool) = false
      then (chunkSegments b r).filter
        (fun s => decide (pb.end_ms ≤ s.start_time))
      else chunkSegments b r) := h
  rw [if_pos ⟨hh, rfl⟩] at h2
  simpa using List.of_mem_filter h2

theorem keptSegments_failed {prev : Option (ChunkBoundary × Bool)}
    {b : ChunkBoundary} {r : ChunkResult}
    (h : r.status = ChunkStatus.failed) : keptSegments prev b r = [] := by
  rcases prev with _ | ⟨pb, pf⟩
  · exact chunkSegments_failed h
  · simp only [keptSegments]
    rw [chunkSegments_failed h]
    split <;> rfl

theorem mergeSegs_eq_flatten :
    ∀ (L : List (ChunkBoundary × ChunkResult))
      (prev : Option (ChunkBoundary × Bool)),
    mergeSegs prev L = (contribs prev L).flatten := by
  intro L
  induction L with
  | nil => intro prev; rfl
  | cons p rest ih =>
    intro prev
    simp only [mergeSegs, contribs, List.flatten_cons]
    rw [ih]

theorem contribs_length
    (prev : Option (ChunkBoundary × Bool)) :
    ∀ (L : List (ChunkBoundary × ChunkResult)),
    (contribs prev L).length = L.length := by
  intro L
  induction L generalizing prev with
  | nil => rfl
  | cons p rest ih =>
    simp only [contribs, List.length_cons]
    rw [ih]

theorem contribs_get_succ :
    ∀ (L : List (ChunkBoundary × ChunkResult))
      (prev : Option (ChunkBoundary × Bool)) (i : Nat)
      (h : i + 1 < L.length),
    (contribs prev L).get ⟨i + 1, by rw [contribs_length]; exact h⟩ =
      keptSegments
        (some ((L.get ⟨i, by omega⟩).1,
          decide ((L.get ⟨i, by omega⟩).2.status = ChunkStatus.failed)))
        (L.get ⟨i + 1, h⟩).1 (L.get ⟨i + 1, h⟩).2 := by
  intro L
  induction L with
  | nil => intro prev i h; simp at h
  | cons p rest ih =>
    intro prev i h
    cases i with
    | zero =>
      cases rest with
      | nil => simp at h
      | cons q rest2 => rfl
    | succ j =>
      exact ih (some (p.1, decide (p.2.status = ChunkStatus.failed))) j
        (by simpa using h)

theorem mergeSegs_pairwise_lb :
    ∀ (P : List (ChunkBoundary × ChunkResult))
      (prev : Option (ChunkBoundary × Bool)),
    List.Chain' (fun p q => chainLink p.1 q.1) P →
    (∀ p ∈ P, p.1.start_ms + hardOv p.1 ≤ p.1.end_ms) →
    (∀ p ∈ P, localOk p.1 p.2) →
    linkOk prev P →
    List.Pairwise (fun s t : TranscriptSegment => s.start_time ≤ t.start_time)
      (mergeSegs prev P) ∧
    (∀ s ∈ mergeSegs prev P, floorOf prev P ≤ s.start_time) := by
  intro P
  induction P with
  | nil =>
    intro prev _ _ _ _
    constructor
    · exact List.Pairwise.nil
    · intro s hs
      simp [mergeSegs] at hs
  | cons p rest ih =>
    intro prev hchain hov hloc hlink
    obtain ⟨b, r⟩ := p
    have hchain2 := (List.chain'_cons'.mp hchain).2
    have hhead := (List.chain'_cons'.mp hchain).1
    have hov_b : b.start_ms + hardOv b ≤ b.end_ms :=
      hov (b, r) (List.mem_cons_self _ _)
    have hloc_b : localOk b r := hloc (b, r) (List.mem_cons_self _ _)
    have hov2 : ∀ q ∈ rest, q.1.start_ms + hardOv q.1 ≤ q.1.end_ms :=
      fun q hq => hov q (List.mem_cons_of_mem _ hq)
    have hloc2 : ∀ q ∈ rest, localOk q.1 q.2 :=
      fun q hq => hloc q (List.mem_cons_of_mem _ hq)
    have hlink2 : linkOk (some (b, decide (r.status = ChunkStatus.failed))) rest := by
      cases rest with
      | nil => trivial
      | cons q rest2 => exact hhead q (by simp)
    obtain ⟨ihPW, ihLB⟩ := ih (some (b, decide (r.status = ChunkStatus.failed)))
      hchain2 hov2 hloc2 hlink2
    have hmerge : mergeSegs prev ((b, r) :: rest) =
        keptSegments prev b r ++
          mergeSegs (some (b, decide (r.status = ChunkStatus.failed))) rest := rfl
    have hkept_ub : ∀ s ∈ keptSegments prev b r, s.start_time ≤ b.end_ms :=
      fun s hs => mem_chunkSegments_ub hloc_b (mem_keptSegments hs)
    have hkept_lb : ∀ s ∈ keptSegments prev b r,
        floorOf prev ((b, r) :: rest) ≤ s.start_time := by
      intro s hs
      rcases prev with _ | ⟨pb, pf⟩
      · show b.start_ms ≤ s.start_time
        exact mem_chunkSegments_lb (mem_keptSegments hs)
      · by_cases hcond : pb.cut_strategy = CutStrategy.hard ∧ pf = false
        · have hfl : floorOf (some (pb, pf)) ((b, r) :: rest) = pb.end_ms := by
            simp only [floorOf]
            rw [if_pos hcond]
          rw [hfl]
          obtain ⟨hhard, hpf⟩ := hcond
          subst hpf
          exact keptSegments_hard_lb hhard hs
        · have hfl : floorOf (some (pb, pf)) ((b, r) :: rest) = b.start_ms := by
            simp only [floorOf]
            rw [if_neg hcond]
          rw [hfl]
          exact mem_chunkSegments_lb (mem_keptSegments hs)
    constructor
    · rw [hmerge, List.pairwise_append]
      refine ⟨keptSegments_pairwise hloc_b, ihPW, ?_⟩
      intro x hx y hy
      have hyLB := ihLB y hy
      cases rest with
      | nil => simp [mergeSegs] at hy
      | cons q rest2 =>
        by_cases hcond : b.cut_strategy = CutStrategy.hard ∧
            decide (r.status = ChunkStatus.failed) = false
        · have hfl : floorOf (some (b, decide (r.status = ChunkStatus.failed)))
              (q :: rest2) = b.end_ms := by
            simp only [floorOf]
            rw [if_pos hcond]
          rw [hfl] at hyLB
          have hxub := hkept_ub x hx
          omega
        · by_cases hfb : decide (r.status = ChunkStatus.failed) = true
          · have hke : keptSegments prev b r = [] :=
              keptSegments_failed (of_decide_eq_true hfb)
            rw [hke] at hx
            cases hx
          · have hfb0 : decide (r.status = ChunkStatus.failed) = false :=
              Bool.not_eq_true _ ▸ hfb
            have hnothard : ¬ b.cut_strategy = CutStrategy.hard := by
              intro hh
              exact hcond ⟨hh, hfb0⟩
            have hfl : floorOf (some (b, decide (r.status = ChunkStatus.failed)))
                (q :: rest2) = q.1.start_ms := by
              simp only [floorOf]
              rw [if_neg hcond]
            have hcl : chainLink b q.1 := hlink2
            have hOv0 : hardOv b = 0 := by simp [hardOv, hnothard]
            have hq : q.1.start_ms = b.end_ms := by
              have h1 := hcl.1
              omega
            have hxub := hkept_ub x hx
            rw [hfl, hq] at hyLB
            omega
    · intro s hs
      rw [hmerge] at hs
      rcases List.mem_append.mp hs with hsk | hsr
      · exact hkept_lb s hsk
      · have hsLB := ihLB s hsr
        cases rest with
        | nil => simp [mergeSegs] at hsr
        | cons q rest2 =>
          have hcl : chainLink b q.1 := hlink2
          have hF : floorOf prev ((b, r) :: q :: rest2) ≤
              floorOf (some (b, decide (r.status = ChunkStatus.failed)))
                (q :: rest2) := by
            by_cases hcond : b.cut_strategy = CutStrategy.hard ∧
                decide (r.status = ChunkStatus.failed) = false
            · have hfl : floorOf (some (b, decide (r.status = ChunkStatus.failed)))
                  (q :: rest2) = b.end_ms := by
                simp only [floorOf]
                rw [if_pos hcond]
              rw [hfl]
              rcases prev with _ | ⟨pb, pf⟩
              · show b.start_ms ≤ b.end_ms
                omega
              · by_cases hpcond : pb.cut_strategy = CutStrategy.hard ∧ pf = false
                · have hfp : floorOf (some (pb, pf)) ((b, r) :: q :: rest2) =
                      pb.end_ms := by
                    simp only [floorOf]
                    rw [if_pos hpcond]
                  rw [hfp]
                  have hpl : chainLink pb b := hlink
                  have h1 := hpl.1
                  have h2 := hpl.2
                  omega
                · have hfp : floorOf (some (pb, pf)) ((b, r) :: q :: rest2) =
                      b.start_ms := by
                    simp only [floorOf]
                    rw [if_neg hpcond]
                  rw [hfp]
                  omega
            · have hfl : floorOf (some (b, decide (r.status = ChunkStatus.failed)))
                  (q :: rest2) = q.1.start_ms := by
                simp only [floorOf]
                rw [if_neg hcond]
              rw [hfl]
              have h1 := hcl.1
              rcases prev with _ | ⟨pb, pf⟩
              · show b.start_ms ≤ q.1.start_ms
                omega
              · by_cases hpcond : pb.cut_strategy = CutStrategy.hard ∧ pf = false
                · have hfp : floorOf (some (pb, pf)) ((b, r) :: q :: rest2) =
                      pb.end_ms := by
                    simp only [floorOf]
                    rw [if_pos hpcond]
                  rw [hfp]
                  have hpl : chainLink pb b := hlink
                  have h2 := hpl.1
                  have h3 := hpl.2
                  omega
                · have hfp : floorOf (some (pb, pf)) ((b, r) :: q :: rest2) =
                      b.start_ms := by
                    simp only [floorOf]
                    rw [if_neg hpcond]
                  rw [hfp]
                  omega
          omega

/-- **C8.** (spec §3 MergedTranscript invariant; §8.5) For every successful
merge of a well-chained boundary list with per-chunk results whose segments
are ordered and within their chunk's span, the merged transcript's segment
start times are non-decreasing across the entire output — including across
hard-cut boundaries and across gaps left by failed chunks. -/
theorem merged_nondecreasing {boundaries : List ChunkBoundary}
    {rs : List ChunkResult} {mt : MergedTranscript}
    (hmt : merge boundaries rs = Except.ok mt)
    (hchain : List.Chain' chainLink boundaries)
    (hov : ∀ b ∈ boundaries, b.start_ms + hardOv b ≤ b.end_ms)
    (hloc : ∀ p ∈ boundaries.zip rs, localOk p.1 p.2) :
    List.Pairwise (fun s t : TranscriptSegment => s.start_time ≤ t.start_time)
      mt.segments := by
  unfold merge at hmt
  split at hmt
  · cases hmt
  · rename_i hlen
    simp only [Except.ok.injEq] at hmt
    subst hmt
    have hlen2 : boundaries.length ≤ rs.length := by omega
    have hchainP : List.Chain'
        (fun p q : ChunkBoundary × ChunkResult => chainLink p.1 q.1)
        (boundaries.zip rs) := by
      have hmapfst : (boundaries.zip rs).map Prod.fst = boundaries :=
        List.map_fst_zip _ _ hlen2
      rw [← hmapfst] at hchain
      exact (List.chain'_map Prod.fst).mp hchain
    have hovP : ∀ p ∈ boundaries.zip rs,
        p.1.start_ms + hardOv p.1 ≤ p.1.end_ms := by
      intro p hp
      obtain ⟨a, c⟩ := p
      exact hov a (List.of_mem_zip hp).1
    have hlinkN : linkOk none (boundaries.zip rs) := by
      cases boundaries.zip rs with
      | nil => trivial
      | cons q rest => trivial
    exact (mergeSegs_pairwise_lb _ none hchainP hovP hloc hlinkN).1

/-- Witness for C8: two chunks split by a hard cut with a 1 ms overlap; the
second chunk's overlap-region segment is dropped and the output is sorted. -/
theorem merged_nondecreasing_witness :
    merge [⟨0, 0, 5, CutStrategy.hard, 1⟩, ⟨1, 4, 9, CutStrategy.final, 0⟩]
        [⟨0, ChunkStatus.ok, [⟨1, 2, "a", none⟩], none⟩,
         ⟨1, ChunkStatus.ok, [⟨1, 3, "b", none⟩], none⟩] =
      Except.ok
        { segments := [⟨1, 2, "a", none⟩, ⟨5, 7, "b", none⟩]
          total_duration_ms := 9
          chunk_count := 2
          failed_chunk_indices := [] } ∧
    List.Chain' chainLink
      [⟨0, 0, 5, CutStrategy.hard, 1⟩, ⟨1, 4, 9, CutStrategy.final, 0⟩] ∧
    List.Pairwise
      (fun s t : TranscriptSegment => s.start_time ≤ t.start_time)
      [⟨1, 2, "a", none⟩, ⟨5, 7, "b", none⟩] := by
  have hchain : List.Chain' chainLink
      [⟨0, 0, 5, CutStrategy.hard, 1⟩, ⟨1, 4, 9, CutStrategy.final, 0⟩] :=
    List.chain'_pair.mpr ⟨by decide, by decide⟩
  have hov : ∀ b ∈ [(⟨0, 0, 5, CutStrategy.hard, 1⟩ : ChunkBoundary),
      ⟨1, 4, 9, CutStrategy.final, 0⟩], b.start_ms + hardOv b ≤ b.end_ms := by
    intro b hb
    fin_cases hb <;> decide
  have hloc : ∀ p ∈ List.zip
      [(⟨0, 0, 5, CutStrategy.hard, 1⟩ : ChunkBoundary),
        ⟨1, 4, 9, CutStrategy.final, 0⟩]
      [(⟨0, ChunkStatus.ok, [⟨1, 2, "a", none⟩], none⟩ : ChunkResult),
        ⟨1, ChunkStatus.ok, [⟨1, 3, "b", none⟩], none⟩],
      localOk p.1 p.2 := by
    intro p hp
    fin_cases hp <;>
      exact ⟨List.pairwise_singleton _ _, by intro s hs; simp at hs; subst hs; decide⟩
  have h := @merged_nondecreasing
    [⟨0, 0, 5, CutStrategy.hard, 1⟩, ⟨1, 4, 9, CutStrategy.final, 0⟩]
    [⟨0, ChunkStatus.ok, [⟨1, 2, "a", none⟩], none⟩,
      ⟨1, ChunkStatus.ok, [⟨1, 3, "b", none⟩], none⟩]
    { segments := [⟨1, 2, "a", none⟩, ⟨5, 7, "b", none⟩]
      total_duration_ms := 9
      chunk_count := 2
      failed_chunk_indices := [] }
    rfl hchain hov hloc
  exact ⟨rfl, hchain, h⟩

/-- **C1.** (spec §4.5 overlap resolution) After a hard cut at boundary `i`:
if chunk `i` succeeded, chunk `i+1` contributes no segment whose global start
time is strictly before chunk `i`'s nominal end; if chunk `i` failed, chunk
`i+1`'s contribution keeps every one of its segments (in particular all
overlap-region segments), the merged transcript being the concatenation of
the per-chunk contributions. -/
theorem hard_cut_overlap_resolution
    {L : List (ChunkBoundary × ChunkResult)} {i : Nat} (h : i + 1 < L.length)
    (hhard : (L.get ⟨i, by omega⟩).1.cut_strategy = CutStrategy.hard) :
    mergeSegs none L = (contribs none L).flatten ∧
    ((L.get ⟨i, by omega⟩).2.status = ChunkStatus.ok →
      ∀ s ∈ (contribs none L).get ⟨i + 1, by rw [contribs_length]; exact h⟩,
        ¬ s.start_time < (L.get ⟨i, by omega⟩).1.end_ms) ∧
    ((L.get ⟨i, by omega⟩).2.status = ChunkStatus.failed →
      (contribs none L).get ⟨i + 1, by rw [contribs_length]; exact h⟩ =
        chunkSegments (L.get ⟨i + 1, h⟩).1 (L.get ⟨i + 1, h⟩).2) := by
  refine ⟨mergeSegs_eq_flatten L none, ?_, ?_⟩
  · intro hok s hs
    rw [contribs_get_succ L none i h] at hs
    have hne : ¬ ((L.get ⟨i, by omega⟩).2.status = ChunkStatus.failed) := by
      rw [hok]
      decide
    have hfb : decide ((L.get ⟨i, by omega⟩).2.status = ChunkStatus.failed) =
        false := decide_eq_false hne
    rw [hfb] at hs
    have := keptSegments_hard_lb hhard hs
    omega
  · intro hfail
    rw [contribs_get_succ L none i h]
    have hfb : decide ((L.get ⟨i, by omega⟩).2.status = ChunkStatus.failed) =
        true := decide_eq_true hfail
    rw [hfb]
    simp only [keptSegments]
    rw [if_neg]
    simp

/-- Witness for C1: a hard cut at index 0 with the first chunk succeeding;
the second chunk's overlap-region segment (global start 4 < 5) is dropped
from its contribution. -/
theorem hard_cut_overlap_resolution_witness :
    (0 + 1 < ([((⟨0, 0, 5, CutStrategy.hard, 1⟩ : ChunkBoundary),
        (⟨0, ChunkStatus.ok, [⟨1, 2, "a", none⟩], none⟩ : ChunkResult)),
      (⟨1, 4, 9, CutStrategy.final, 0⟩,
        ⟨1, ChunkStatus.ok, [⟨0, 1, "x", none⟩, ⟨2, 3, "y", none⟩],
          none⟩)]).length) ∧
    (mergeSegs none
        [((⟨0, 0, 5, CutStrategy.hard, 1⟩ : ChunkBoundary),
          (⟨0, ChunkStatus.ok, [⟨1, 2, "a", none⟩], none⟩ : ChunkResult)),
         (⟨1, 4, 9, CutStrategy.final, 0⟩,
          ⟨1, ChunkStatus.ok, [⟨0, 1, "x", none⟩, ⟨2, 3, "y", none⟩], none⟩)] =
      (contribs none
        [((⟨0, 0, 5, CutStrategy.hard, 1⟩ : ChunkBoundary),
          (⟨0, ChunkStatus.ok, [⟨1, 2, "a", none⟩], none⟩ : ChunkResult)),
         (⟨1, 4, 9, CutStrategy.final, 0⟩,
          ⟨1, ChunkStatus.ok, [⟨0, 1, "x", none⟩, ⟨2, 3, "y", none⟩],
            none⟩)]).flatten) := by
  have h := @hard_cut_overlap_resolution
    [((⟨0, 0, 5, CutStrategy.hard, 1⟩ : ChunkBoundary),
      (⟨0, ChunkStatus.ok, [⟨1, 2, "a", none⟩], none⟩ : ChunkResult)),
     (⟨1, 4, 9, CutStrategy.final, 0⟩,
      ⟨1, ChunkStatus.ok, [⟨0, 1, "x", none⟩, ⟨2, 3, "y", none⟩], none⟩)]
    0 (by decide) rfl
  exact ⟨by decide, h.1⟩

theorem map_runChunk_sorted {client : TranscriptionClient} {n : Nat} :
    List.Pairwise (fun a b : ChunkResult => a.chunk_index ≤ b.chunk_index)
      ((List.range n).map (runChunk client)) := by
  rw [List.pairwise_map]
  refine (List.pairwise_lt_range n).imp ?_
  intro i j hij
  rw [runChunk_index, runChunk_index]
  omega

/-- **C6.** (spec §4.4 step 3, §7 propagation policy; §8.7) Failing chunks
never prevent the others from being attempted or succeeding: every chunk index
gets exactly one transcription call and one result in index order, a result is
`failed` exactly when its own call failed, the merged transcript's
`failed_chunk_indices` are exactly the failing indices, and the surviving
segments are concatenated per chunk in index order. -/
theorem chunk_failure_isolated {cfg : Config} {client : TranscriptionClient}
    {boundaries : List ChunkBoundary} (hbs : 0 < cfg.batch_size)
    (hsome : ∃ i, i < boundaries.length ∧ clientFails client i = false) :
    ∃ rs mt,
      orchestrate cfg client boundaries.length = Except.ok rs ∧
      merge boundaries rs = Except.ok mt ∧
      rs = (List.range boundaries.length).map (runChunk client) ∧
      (∀ i, (runChunk client i).chunk_index = i ∧
        ((runChunk client i).status = ChunkStatus.failed ↔
          clientFails client i = true)) ∧
      mt.failed_chunk_indices =
        (List.range boundaries.length).filter (clientFails client) ∧
      mt.segments = (contribs none (boundaries.zip rs)).flatten := by
  obtain ⟨i0, hi0, hok0⟩ := hsome
  have htrace : callTrace cfg.batch_size boundaries.length =
      List.range boundaries.length := callTrace_eq_range hbs
  have horch : orchestrate cfg client boundaries.length =
      Except.ok ((List.range boundaries.length).map (runChunk client)) := by
    unfold orchestrate
    rw [htrace]
    rw [if_neg]
    · rw [sortByIndex_of_sorted map_runChunk_sorted]
    · rintro ⟨_, hall⟩
      have hmem : runChunk client i0 ∈
          (List.range boundaries.length).map (runChunk client) :=
        List.mem_map.mpr ⟨i0, List.mem_range.mpr hi0, rfl⟩
      have := List.all_eq_true.mp hall _ hmem
      have hfail0 : clientFails client i0 = true :=
        runChunk_failed_iff.mp (of_decide_eq_true this)
      rw [hok0] at hfail0
      cases hfail0
  have hlen : ((List.range boundaries.length).map (runChunk client)).length =
      boundaries.length := by simp
  refine ⟨(List.range boundaries.length).map (runChunk client),
    { segments := mergeSegs none
        (boundaries.zip ((List.range boundaries.length).map (runChunk client)))
      total_duration_ms := (boundaries.getLast?).elim 0 (fun b => b.end_ms)
      chunk_count :=
        ((List.range boundaries.length).map (runChunk client)).length
      failed_chunk_indices :=
        (((List.range boundaries.length).map (runChunk client)).filter
          (fun r => r.status = ChunkStatus.failed)).map
            (fun r => r.chunk_index) },
    horch, ?_, rfl, ?_, ?_, ?_⟩
  · unfold merge
    rw [if_neg]
    omega
  · intro i
    exact ⟨runChunk_index, runChunk_failed_iff⟩
  · show (((List.range boundaries.length).map (runChunk client)).filter
        (fun r => r.status = ChunkStatus.failed)).map (fun r => r.chunk_index) =
      (List.range boundaries.length).filter (clientFails client)
    rw [List.filter_map, List.map_map]
    have hpred : ∀ i ∈ List.range boundaries.length,
        ((fun r : ChunkResult => decide (r.status = ChunkStatus.failed)) ∘
          runChunk client) i = clientFails client i := by
      intro i _
      simp only [Function.comp]
      cases hc : client i <;> simp [runChunk, clientFails, hc]
    rw [List.filter_congr hpred]
    have hfun : ((fun r : ChunkResult => r.chunk_index) ∘ runChunk client) =
        fun i => i := funext (fun i => runChunk_index)
    rw [hfun, List.map_id']
  · exact mergeSegs_eq_flatten _ _

/-- Witness for C6: three chunks, the middle one failing; the other two are
attempted and succeed, and the failed index list is exactly `[1]`. -/
theorem chunk_failure_isolated_witness :
    0 < tinyConfig.batch_size ∧
    (∃ i, i < ([(⟨0, 0, 3, CutStrategy.silence, 0⟩ : ChunkBoundary),
        ⟨1, 3, 6, CutStrategy.silence, 0⟩,
        ⟨2, 6, 9, CutStrategy.final, 0⟩]).length ∧
      clientFails
        (fun i => if i = 1 then Except.error "boom" else Except.ok []) i =
          false) ∧
    (∃ rs mt,
      orchestrate tinyConfig
          (fun i => if i = 1 then Except.error "boom" else Except.ok [])
          ([(⟨0, 0, 3, CutStrategy.silence, 0⟩ : ChunkBoundary),
            ⟨1, 3, 6, CutStrategy.silence, 0⟩,
            ⟨2, 6, 9, CutStrategy.final, 0⟩]).length = Except.ok rs ∧
      merge [⟨0, 0, 3, CutStrategy.silence, 0⟩,
          ⟨1, 3, 6, CutStrategy.silence, 0⟩,
          ⟨2, 6, 9, CutStrategy.final, 0⟩] rs = Except.ok mt ∧
      rs = (List.range ([(⟨0, 0, 3, CutStrategy.silence, 0⟩ : ChunkBoundary),
          ⟨1, 3, 6, CutStrategy.silence, 0⟩,
          ⟨2, 6, 9, CutStrategy.final, 0⟩]).length).map
        (runChunk (fun i => if i = 1 then Except.error "boom" else
          Except.ok [])) ∧
      (∀ i, (runChunk (fun i => if i = 1 then Except.error "boom" else
          Except.ok []) i).chunk_index = i ∧
        ((runChunk (fun i => if i = 1 then Except.error "boom" else
            Except.ok []) i).status = ChunkStatus.failed ↔
          clientFails (fun i => if i = 1 then Except.error "boom" else
            Except.ok []) i = true)) ∧
      mt.failed_chunk_indices =
        (List.range ([(⟨0, 0, 3, CutStrategy.silence, 0⟩ : ChunkBoundary),
          ⟨1, 3, 6, CutStrategy.silence, 0⟩,
          ⟨2, 6, 9, CutStrategy.final, 0⟩]).length).filter
          (clientFails (fun i => if i = 1 then Except.error "boom" else
            Except.ok [])) ∧
      mt.segments = (contribs none
        ([(⟨0, 0, 3, CutStrategy.silence, 0⟩ : ChunkBoundary),
          ⟨1, 3, 6, CutStrategy.silence, 0⟩,
          ⟨2, 6, 9, CutStrategy.final, 0⟩].zip rs)).flatten) :=
  ⟨by decide, ⟨0, by decide, rfl⟩,
    chunk_failure_isolated (by decide) ⟨0, by decide, rfl⟩⟩

/-- Witness for C2: a 12 ms source with no silence under `tinyConfig`
produces two hard cuts and a final boundary satisfying the invariant. -/
theorem segment_boundary_invariant_witness :
    0 < tinyConfig.min_chunk_ms ∧
    tinyConfig.overlap_ms < tinyConfig.max_chunk_ms ∧
    segment tinyConfig (fun _ => []) 12 = Except.ok
      [⟨0, 0, 5, CutStrategy.hard, 1⟩, ⟨1, 4, 9, CutStrategy.hard, 1⟩,
        ⟨2, 8, 12, CutStrategy.final, 0⟩] ∧
    (List.Pairwise (fun a b : ChunkBoundary => a.start_ms < b.start_ms)
      [⟨0, 0, 5, CutStrategy.hard, 1⟩, ⟨1, 4, 9, CutStrategy.hard, 1⟩,
        ⟨2, 8, 12, CutStrategy.final, 0⟩] ∧
    (∀ b ∈ [(⟨0, 0, 5, CutStrategy.hard, 1⟩ : ChunkBoundary),
        ⟨1, 4, 9, CutStrategy.hard, 1⟩, ⟨2, 8, 12, CutStrategy.final, 0⟩],
      b.start_ms < b.end_ms) ∧
    List.Chain' (adjacent tinyConfig)
      [⟨0, 0, 5, CutStrategy.hard, 1⟩, ⟨1, 4, 9, CutStrategy.hard, 1⟩,
        ⟨2, 8, 12, CutStrategy.final, 0⟩]) :=
  ⟨by decide, by decide, rfl,
    segment_boundary_invariant (by decide) (by decide)
      (show segment tinyConfig (fun _ => []) 12 = Except.ok
        [⟨0, 0, 5, CutStrategy.hard, 1⟩, ⟨1, 4, 9, CutStrategy.hard, 1⟩,
          ⟨2, 8, 12, CutStrategy.final, 0⟩] from rfl)⟩

/-- Witness for C9: under `tinyConfig` the segmenter succeeds on a 12 ms
source and fails exactly on non-positive durations. -/
theorem segment_error_iff_witness :
    0 < tinyConfig.min_chunk_ms ∧
    tinyConfig.overlap_ms < tinyConfig.max_chunk_ms ∧
    ((segment tinyConfig (fun _ => []) 12 =
        Except.error PipelineError.SegmentationError ↔ (12 : Int) ≤ 0) ∧
      (0 < (12 : Int) →
        ∃ bs, segment tinyConfig (fun _ => []) 12 = Except.ok bs)) :=
  ⟨by decide, by decide, segment_error_iff (by decide) (by decide)⟩

/-- Witness for C3: with a qualifying silence run `(3, 4)` at the −20 dBFS
threshold, the emitted boundary is a silence cut at the midpoint 3. -/
theorem silence_preferred_over_hard_witness :
    segmentLoop tinyConfig (fun t => if t = (-20 : Int) then [(3, 4)] else [])
        8 9 0 0 = some
      [⟨0, 0, 3, CutStrategy.silence, 0⟩, ⟨1, 3, 8, CutStrategy.final, 0⟩] ∧
    ¬ (8 - 0 ≤ tinyConfig.max_chunk_ms) ∧
    (-20 : Int) ∈ tinyConfig.silence_thresholds_dbfs ∧
    ((fun t => if t = (-20 : Int) then [((3 : Nat), (4 : Nat))] else [])
      (-20 : Int)).any (qualifies tinyConfig 0) = true ∧
    (∃ t0 iv0 rest,
      tinyConfig.silence_thresholds_dbfs.find?
        (fun u =>
          ((fun t => if t = (-20 : Int) then [((3 : Nat), (4 : Nat))] else [])
            u).any (qualifies tinyConfig 0)) = some t0 ∧
      iv0 ∈ (fun t => if t = (-20 : Int) then [((3 : Nat), (4 : Nat))] else [])
        t0 ∧
      qualifies tinyConfig 0 iv0 = true ∧
      (∀ jv ∈ (fun t => if t = (-20 : Int) then [((3 : Nat), (4 : Nat))]
          else []) t0, qualifies tinyConfig 0 jv = true → iv0.1 ≤ jv.1) ∧
      [(⟨0, 0, 3, CutStrategy.silence, 0⟩ : ChunkBoundary),
        ⟨1, 3, 8, CutStrategy.final, 0⟩] =
        ⟨0, 0, (iv0.1 + iv0.2) / 2, CutStrategy.silence, 0⟩ :: rest) :=
  ⟨rfl, by decide, by decide, by decide,
    silence_preferred_over_hard
      (show segmentLoop tinyConfig
          (fun t => if t = (-20 : Int) then [(3, 4)] else []) 8 (8 + 1) 0 0 =
        some [⟨0, 0, 3, CutStrategy.silence, 0⟩,
          ⟨1, 3, 8, CutStrategy.final, 0⟩] from rfl)
      (by decide)
      (show (-20 : Int) ∈ tinyConfig.silence_thresholds_dbfs by decide)
      (show ((fun t => if t = (-20 : Int) then [((3 : Nat), (4 : Nat))]
          else []) (-20 : Int)).any (qualifies tinyConfig 0) = true
        by decide)⟩

end MeetingDemo
